import Mathlib

/-!
Verification development for the latent-space projection optimizer of the
stylegan2-ada-pytorch projector (`projector.py` and
`projector_stylegan3_fun.py`).  Floating-point tensors are modelled by exact
rationals (ℚ) where the code only uses field operations, and by real numbers
(ℝ) where square roots or trigonometric functions appear.  Tensor shapes are
modelled by lists: a 2-D noise buffer is a list of rows, a flat buffer a list
of scalars.  External collaborators (the generator network, the Adam
optimizer, the VGG16 backbone, numpy's Gaussian sampler) are abstracted as
opaque function parameters; everything the repository itself computes is
translated directly from the source.
-/

namespace StyleganProjector

/-! ### Learning-rate schedule

From `projector_stylegan3_fun.py` lines 156-166 (the branch-free form of the
same code appears in `projector.py` lines 84-89):

    t = step / num_steps
    if constant_learning_rate:
        lr_ramp = 1.0
    else:
        lr_ramp = min(1.0, (1.0 - t) / lr_rampdown_length)
        lr_ramp = 0.5 - 0.5 * np.cos(lr_ramp * np.pi)
        lr_ramp = lr_ramp * min(1.0, t / lr_rampup_length)
    lr = initial_learning_rate * lr_ramp
-/

noncomputable def lrSchedule (constantLr : Bool) (initialLr lrRampdownLength lrRampupLength t : ℝ) : ℝ :=
  if constantLr then
    initialLr * 1
  else
    initialLr *
      ((0.5 - 0.5 * Real.cos (min 1 ((1 - t) / lrRampdownLength) * Real.pi)) *
        min 1 (t / lrRampupLength))

/-! ### Noise regularization pyramid

From `projector.py` lines 108-116 (identically repeated in
`projector_stylegan3_fun.py` at lines 195-204, 229-238, 265-274, 299-308):

    reg_loss = 0.0
    for v in noise_bufs.values():
        noise = v[None, None, :, :]
        while True:
            reg_loss += (noise * torch.roll(noise, shifts=1, dims=3)).mean() ** 2
            reg_loss += (noise * torch.roll(noise, shifts=1, dims=2)).mean() ** 2
            if noise.shape[2] <= 8:
                break
            noise = F.avg_pool2d(noise, kernel_size=2)

A buffer `v` is a 2-D tensor, modelled as a `List (List ℚ)` of rows;
`noise.shape[2]` is its number of rows. -/

/-- `torch.roll(·, shifts=1)` along a single axis: the last entry wraps to
the front. -/
def rollOne {α : Type} (l : List α) : List α :=
  l.drop (l.length - 1) ++ l.take (l.length - 1)

/-- Roll along dims=3, i.e. roll every row (horizontal shift by one pixel). -/
def rollW (img : List (List ℚ)) : List (List ℚ) :=
  img.map rollOne

/-- Roll along dims=2, i.e. roll the list of rows (vertical shift by one
pixel). -/
def rollH (img : List (List ℚ)) : List (List ℚ) :=
  rollOne img

/-- Elementwise product of two images (`noise * torch.roll(noise, ...)`). -/
def hadamard (a b : List (List ℚ)) : List (List ℚ) :=
  List.zipWith (List.zipWith (· * ·)) a b

/-- Total number of scalar entries of an image. -/
def countElems (img : List (List ℚ)) : ℕ :=
  (img.map List.length).sum

/-- Sum of all scalar entries of an image. -/
def sumElems (img : List (List ℚ)) : ℚ :=
  (img.map List.sum).sum

/-- `Tensor.mean()` over all entries. -/
def mean2 (img : List (List ℚ)) : ℚ :=
  sumElems img / countElems img

/-- Average adjacent horizontal pairs (one row of `F.avg_pool2d(·, 2)`). -/
def poolPairs : List ℚ → List ℚ
  | a :: b :: rest => (a + b) / 2 :: poolPairs rest
  | _ => []

/-- `F.avg_pool2d(·, kernel_size=2)`: each output entry is the average of a
2×2 input block; a trailing odd row or column is dropped. -/
def pool2 : List (List ℚ) → List (List ℚ)
  | r1 :: r2 :: rest =>
      List.zipWith (fun a b => (a + b) / 2) (poolPairs r1) (poolPairs r2) :: pool2 rest
  | _ => []

theorem poolPairs_length (l : List ℚ) : (poolPairs l).length = l.length / 2 := by
  induction l using poolPairs.induct with
  | case1 a b rest ih => simp [poolPairs, ih]; omega
  | case2 l h => cases l with
    | nil => simp [poolPairs]
    | cons a rest =>
        cases rest with
        | nil => simp [poolPairs]
        | cons b rest2 => exact absurd rfl (h a b rest2)

theorem pool2_length (img : List (List ℚ)) : (pool2 img).length = img.length / 2 := by
  induction img using pool2.induct with
  | case1 r1 r2 rest ih => simp [pool2, ih]; omega
  | case2 l h => cases l with
    | nil => simp [pool2]
    | cons a rest =>
        cases rest with
        | nil => simp [pool2]
        | cons b rest2 => exact absurd rfl (h a b rest2)

/-- One buffer's contribution to the regularization loss: the inner
`while True` loop of the source, written as a recursion whose accumulated
additions are summed.  The stopping test `noise.shape[2] <= 8` inspects the
number of rows. -/
def regBuf (img : List (List ℚ)) : ℚ :=
  let term := mean2 (hadamard img (rollW img)) ^ 2 + mean2 (hadamard img (rollH img)) ^ 2
  if img.length ≤ 8 then term
  else term + regBuf (pool2 img)
termination_by img.length
decreasing_by
  rw [pool2_length]
  exact Nat.div_lt_self (by omega) (by omega)

/-- The full regularization loss: the outer `for v in noise_bufs.values()`
accumulation. -/
def totalReg (bufs : List (List (List ℚ))) : ℚ :=
  bufs.foldl (fun acc v => acc + regBuf v) 0

/-- The per-buffer penalty as the specification words it: recurse while "the
image's smaller spatial dimension exceeds 8", where the spatial dimensions
are the row count and the width of the first row. -/
def regBufSpec (img : List (List ℚ)) : ℚ :=
  let term := mean2 (hadamard img (rollW img)) ^ 2 + mean2 (hadamard img (rollH img)) ^ 2
  if min img.length img.headI.length ≤ 8 then term
  else term + regBufSpec (pool2 img)
termination_by img.length
decreasing_by
  rw [pool2_length]
  exact Nat.div_lt_self (by omega) (by omega)

/-- An image is square when every row is as long as the list of rows; every
`noise_const` buffer of a StyleGAN2 synthesis network has this shape. -/
def IsSquare (img : List (List ℚ)) : Prop :=
  ∀ r ∈ img, r.length = img.length

instance (img : List (List ℚ)) : Decidable (IsSquare img) := by
  unfold IsSquare; infer_instance

/-- Elementwise negation of a buffer. -/
def negBuf (img : List (List ℚ)) : List (List ℚ) :=
  img.map (List.map (fun x => -x))

/-- All rows of an image have width `w`. -/
def RowsLen (img : List (List ℚ)) (w : ℕ) : Prop :=
  ∀ r ∈ img, r.length = w

theorem pool2_rows {img : List (List ℚ)} {w : ℕ} (h : RowsLen img w) :
    RowsLen (pool2 img) (w / 2) := by
  induction img using pool2.induct with
  | case1 r1 r2 rest ih =>
      have h1 : r1.length = w := h r1 (by simp)
      have h2 : r2.length = w := h r2 (by simp)
      intro r hr
      rw [pool2, List.mem_cons] at hr
      rcases hr with rfl | hr
      · rw [List.length_zipWith, poolPairs_length, poolPairs_length, h1, h2, min_self]
      · exact ih (fun s hs => h s (by simp [hs])) r hr
  | case2 l hshort =>
      intro r hr
      cases l with
      | nil => simp [pool2] at hr
      | cons a rest =>
          cases rest with
          | nil => simp [pool2] at hr
          | cons b rest2 => exact absurd rfl (hshort a b rest2)

theorem isSquare_pool2 {img : List (List ℚ)} (h : IsSquare img) :
    IsSquare (pool2 img) := by
  intro r hr
  rw [pool2_length]
  exact pool2_rows h r hr

theorem regBuf_eq_spec (img : List (List ℚ)) (hsq : IsSquare img) :
    regBuf img = regBufSpec img := by
  rw [regBuf, regBufSpec]
  have hmin : min img.length img.headI.length = img.length := by
    cases img with
    | nil => simp
    | cons r rest =>
        have : (r :: rest).headI.length = (r :: rest).length := hsq r (by simp)
        rw [this, min_self]
  rw [hmin]
  by_cases hle : img.length ≤ 8
  · rw [if_pos hle, if_pos hle]
  · rw [if_neg hle, if_neg hle, regBuf_eq_spec (pool2 img) (isSquare_pool2 hsq)]
termination_by img.length
decreasing_by
  rw [pool2_length]
  exact Nat.div_lt_self (by omega) (by omega)

theorem regBuf_nonneg (img : List (List ℚ)) : 0 ≤ regBuf img := by
  rw [regBuf]
  have hterm : (0 : ℚ) ≤ mean2 (hadamard img (rollW img)) ^ 2 +
      mean2 (hadamard img (rollH img)) ^ 2 :=
    add_nonneg (sq_nonneg _) (sq_nonneg _)
  by_cases hle : img.length ≤ 8
  · simpa [hle] using hterm
  · simp only [hle, if_false]
    exact add_nonneg hterm (regBuf_nonneg (pool2 img))
termination_by img.length
decreasing_by
  rw [pool2_length]
  exact Nat.div_lt_self (by omega) (by omega)

theorem rollOne_map {α β : Type} (f : α → β) (l : List α) :
    rollOne (l.map f) = (rollOne l).map f := by
  simp [rollOne, List.map_drop, List.map_take]

theorem rollW_neg (img : List (List ℚ)) : rollW (negBuf img) = negBuf (rollW img) := by
  simp only [rollW, negBuf, List.map_map]
  exact List.map_congr_left (fun r _ => rollOne_map _ r)

theorem rollH_neg (img : List (List ℚ)) : rollH (negBuf img) = negBuf (rollH img) := by
  simp only [rollH, negBuf]
  exact rollOne_map _ img

theorem zipWith_mul_neg (r s : List ℚ) :
    List.zipWith (· * ·) (r.map (fun x => -x)) (s.map (fun x => -x)) =
      List.zipWith (· * ·) r s := by
  rw [List.zipWith_map]
  have hf : (fun (a b : ℚ) => -a * -b) = (· * ·) := by
    funext a b
    exact neg_mul_neg a b
  rw [hf]

theorem hadamard_neg (a b : List (List ℚ)) :
    hadamard (negBuf a) (negBuf b) = hadamard a b := by
  simp only [hadamard, negBuf]
  rw [List.zipWith_map]
  have hf : (fun (r s : List ℚ) =>
      List.zipWith (· * ·) (r.map (fun x => -x)) (s.map (fun x => -x))) =
      fun r s => List.zipWith (· * ·) r s := by
    funext r s
    exact zipWith_mul_neg r s
  rw [hf]

theorem poolPairs_neg (l : List ℚ) :
    poolPairs (l.map (fun x => -x)) = (poolPairs l).map (fun x => -x) := by
  induction l using poolPairs.induct with
  | case1 a b rest ih =>
      simp only [List.map_cons, poolPairs, ih, List.map]
      congr 1
      ring
  | case2 l hshort =>
      cases l with
      | nil => simp [poolPairs]
      | cons a rest =>
          cases rest with
          | nil => simp [poolPairs]
          | cons b rest2 => exact absurd rfl (hshort a b rest2)

theorem pool2_neg (img : List (List ℚ)) : pool2 (negBuf img) = negBuf (pool2 img) := by
  induction img using pool2.induct with
  | case1 r1 r2 rest ih =>
      simp only [negBuf, List.map_cons, pool2, poolPairs_neg]
      refine congrArg₂ _ ?_ ?_
      · rw [List.zipWith_map, List.map_zipWith]
        have hf : (fun (a b : ℚ) => (-a + -b) / 2) = fun a b => -((a + b) / 2) := by
          funext a b
          ring
        rw [hf]
      · simpa [negBuf] using ih
  | case2 l hshort =>
      cases l with
      | nil => simp [pool2, negBuf]
      | cons a rest =>
          cases rest with
          | nil => simp [pool2, negBuf]
          | cons b rest2 => exact absurd rfl (hshort a b rest2)

theorem negBuf_length (img : List (List ℚ)) : (negBuf img).length = img.length := by
  simp [negBuf]

theorem regBuf_neg (img : List (List ℚ)) : regBuf (negBuf img) = regBuf img := by
  conv_lhs => rw [regBuf]
  conv_rhs => rw [regBuf]
  rw [rollW_neg, rollH_neg, hadamard_neg, hadamard_neg, negBuf_length]
  by_cases hle : img.length ≤ 8
  · rw [if_pos hle, if_pos hle]
  · rw [if_neg hle, if_neg hle, pool2_neg, regBuf_neg (pool2 img)]
termination_by img.length
decreasing_by
  rw [pool2_length]
  exact Nat.div_lt_self (by omega) (by omega)

theorem foldl_add_regBuf (l : List (List (List ℚ))) (c : ℚ) :
    l.foldl (fun acc v => acc + regBuf v) c = c + (l.map regBuf).sum := by
  induction l generalizing c with
  | nil => simp
  | cons b bs ih => simp [List.foldl_cons, ih, add_assoc]

theorem totalReg_eq_sum (bufs : List (List (List ℚ))) :
    totalReg bufs = (bufs.map regBuf).sum := by
  simp [totalReg, foldl_add_regBuf]

theorem totalReg_set_neg : ∀ (bufs : List (List (List ℚ))) (i : ℕ),
    totalReg (bufs.set i (negBuf (bufs.getD i []))) = totalReg bufs := by
  intro bufs
  induction bufs with
  | nil => intro i; simp
  | cons b bs ih =>
      intro i
      cases i with
      | zero =>
          simp only [List.getD_cons_zero, List.set_cons_zero, totalReg_eq_sum,
            List.map_cons, List.sum_cons, regBuf_neg]
      | succ j =>
          have hj := ih j
          simp only [List.getD_cons_succ, List.set_cons_succ, totalReg_eq_sum,
            List.map_cons, List.sum_cons] at hj ⊢
          rw [hj]

/-! ### Per-step noise-buffer renormalization

From `projector.py` lines 129-132 (identical in `projector_stylegan3_fun.py`
lines 338-341):

    with torch.no_grad():
        for buf in noise_bufs.values():
            buf -= buf.mean()
            buf *= buf.square().mean().rsqrt()

A buffer is a tensor of scalars; the operations are elementwise, so the
buffer is modelled as a flat `List ℝ`.  `rsqrt` is the reciprocal square
root. -/

noncomputable def bufMean (b : List ℝ) : ℝ :=
  b.sum / b.length

noncomputable def bufMeanSq (b : List ℝ) : ℝ :=
  (b.map (fun x => x ^ 2)).sum / b.length

/-- `buf -= buf.mean()`. -/
noncomputable def centerBuf (b : List ℝ) : List ℝ :=
  b.map (fun x => x - bufMean b)

/-- The two in-place updates of one buffer: subtract the mean, then multiply
by the reciprocal square root of the (post-subtraction) mean square. -/
noncomputable def normalizeBuf (b : List ℝ) : List ℝ :=
  (centerBuf b).map (fun x => x * (Real.sqrt (bufMeanSq (centerBuf b)))⁻¹)

theorem sum_map_sub_const (l : List ℝ) (m : ℝ) :
    (l.map (fun x => x - m)).sum = l.sum - l.length * m := by
  induction l with
  | nil => simp
  | cons x xs ih => simp [ih]; ring

theorem sum_map_mul_const (l : List ℝ) (k : ℝ) :
    (l.map (fun x => x * k)).sum = l.sum * k := by
  induction l with
  | nil => simp
  | cons x xs ih => simp [ih]; ring

theorem sum_sq_pos {l : List ℝ} {x : ℝ} (hx : x ∈ l) (hx0 : x ≠ 0) :
    0 < (l.map (fun y => y ^ 2)).sum := by
  have hxsq : 0 < x ^ 2 := by positivity
  have hmem : x ^ 2 ∈ l.map (fun y => y ^ 2) := List.mem_map_of_mem _ hx
  have hle : x ^ 2 ≤ (l.map (fun y => y ^ 2)).sum :=
    List.single_le_sum (fun y hy => by
      obtain ⟨z, _, rfl⟩ := List.mem_map.mp hy
      positivity) _ hmem
  linarith

theorem centerBuf_sum (b : List ℝ) : (centerBuf b).sum = 0 := by
  rw [centerBuf, sum_map_sub_const, bufMean]
  cases b with
  | nil => simp
  | cons x xs =>
      have hn : ((x :: xs).length : ℝ) ≠ 0 := by
        simp [Nat.cast_add]
        positivity
      field_simp

theorem centerBuf_length (b : List ℝ) : (centerBuf b).length = b.length := by
  simp [centerBuf]

/-- Core fact behind the renormalization invariant: provided the centered
buffer is not identically zero, the renormalized buffer has mean 0 and mean
square 1 exactly (the code's "within floating-point tolerance"). -/
theorem normalizeBuf_moments (b : List ℝ) (hne : b ≠ [])
    (hnz : ∃ x ∈ centerBuf b, x ≠ 0) :
    bufMean (normalizeBuf b) = 0 ∧ bufMeanSq (normalizeBuf b) = 1 := by
  obtain ⟨x, hx, hx0⟩ := hnz
  have hn : (0 : ℝ) < (centerBuf b).length := by
    rw [centerBuf_length]
    have : b.length ≠ 0 := fun h => hne (List.length_eq_zero.mp h)
    exact_mod_cast Nat.pos_of_ne_zero this
  have hS : 0 < ((centerBuf b).map (fun y => y ^ 2)).sum := sum_sq_pos hx hx0
  have hms : 0 < bufMeanSq (centerBuf b) := by
    rw [bufMeanSq]
    positivity
  set k : ℝ := (Real.sqrt (bufMeanSq (centerBuf b)))⁻¹ with hk
  constructor
  · rw [bufMean, normalizeBuf, sum_map_mul_const, centerBuf_sum]
    simp
  · rw [bufMeanSq, normalizeBuf, List.map_map, List.length_map, centerBuf_length]
    have hmap : ((fun x => x ^ 2) ∘ fun x => x * k) = fun x => x ^ 2 * k ^ 2 := by
      funext y
      simp [mul_pow]
    rw [hmap]
    have hfactor : (centerBuf b).map (fun x => x ^ 2 * k ^ 2) =
        ((centerBuf b).map (fun x => x ^ 2)).map (fun x => x * k ^ 2) := by
      rw [List.map_map]
      rfl
    rw [hfactor, sum_map_mul_const]
    have hk2 : k ^ 2 = (bufMeanSq (centerBuf b))⁻¹ := by
      rw [hk, inv_pow, Real.sq_sqrt hms.le]
    have hmsval : bufMeanSq (centerBuf b) =
        ((centerBuf b).map (fun y => y ^ 2)).sum / b.length := by
      rw [bufMeanSq, centerBuf_length]
    have hb : ((b.length : ℝ)) ≠ 0 := by
      rw [centerBuf_length] at hn
      exact ne_of_gt hn
    rw [hk2, hmsval]
    field_simp

/-! ### The optimization loop

From `projector.py` lines 74-134: the mutable optimization state is the
latent `w_opt` plus the noise buffers; `w_out` is preallocated with
`num_steps` slots; each iteration performs the schedule / synthesis / loss /
`optimizer.step()` updates (external differentiable computation, abstracted
as an arbitrary per-step state transformer `optStep`), then writes
`w_out[step] = w_opt.detach()[0]`, then renormalizes every noise buffer.
`projector_stylegan3_fun.py` lines 145-341 has the same loop shape.
A trajectory slot is `Option (List ℝ)` so that an unwritten slot (`none`) is
distinguishable from a written one. -/

structure OptState where
  wOpt : List ℝ
  bufs : List (List ℝ)

/-- End-of-iteration renormalization of every noise buffer; the latent is
untouched. -/
noncomputable def normalizeState (s : OptState) : OptState :=
  ⟨s.wOpt, s.bufs.map normalizeBuf⟩

structure LoopAcc where
  st : OptState
  traj : List (Option (List ℝ))
  cnt : ℕ

/-- One iteration of `for step in range(num_steps)`. -/
noncomputable def loopBody (optStep : ℕ → OptState → OptState) (acc : LoopAcc) (step : ℕ) :
    LoopAcc :=
  let s1 := optStep step acc.st
  ⟨normalizeState s1, acc.traj.set step (some s1.wOpt), acc.cnt + 1⟩

/-- The loop run over its first `j` iterations, starting from the
preallocated all-unwritten trajectory. -/
noncomputable def projectRunUpTo (optStep : ℕ → OptState → OptState) (numSteps j : ℕ)
    (init : OptState) : LoopAcc :=
  (List.range j).foldl (loopBody optStep) ⟨init, List.replicate numSteps none, 0⟩

/-- The full loop: `for step in range(num_steps)` runs all `num_steps`
iterations; there is no break, early stop, or convergence test. -/
noncomputable def projectRun (optStep : ℕ → OptState → OptState) (numSteps : ℕ)
    (init : OptState) : LoopAcc :=
  projectRunUpTo optStep numSteps numSteps init

/-- The optimizer state after `j` completed iterations. -/
noncomputable def stateAt (optStep : ℕ → OptState → OptState) (init : OptState) : ℕ → OptState
  | 0 => init
  | j + 1 => normalizeState (optStep j (stateAt optStep init j))

/-- The noise buffers right after iteration `j`'s gradient step
(`optimizer.step()`), before the end-of-iteration renormalization. -/
noncomputable def preStepBufs (optStep : ℕ → OptState → OptState) (init : OptState)
    (numSteps j : ℕ) : List (List ℝ) :=
  (optStep j (projectRunUpTo optStep numSteps j init).st).bufs

theorem projectRunUpTo_succ (optStep : ℕ → OptState → OptState) (numSteps j : ℕ)
    (init : OptState) :
    projectRunUpTo optStep numSteps (j + 1) init =
      loopBody optStep (projectRunUpTo optStep numSteps j init) j := by
  rw [projectRunUpTo, projectRunUpTo, List.range_succ, List.foldl_append, List.foldl_cons,
    List.foldl_nil]

theorem projectRunUpTo_st (optStep : ℕ → OptState → OptState) (numSteps : ℕ)
    (init : OptState) : ∀ j, (projectRunUpTo optStep numSteps j init).st =
      stateAt optStep init j := by
  intro j
  induction j with
  | zero => rfl
  | succ j ih => rw [projectRunUpTo_succ, loopBody, stateAt, ih]

theorem projectRunUpTo_cnt (optStep : ℕ → OptState → OptState) (numSteps : ℕ)
    (init : OptState) : ∀ j, (projectRunUpTo optStep numSteps j init).cnt = j := by
  intro j
  induction j with
  | zero => rfl
  | succ j ih => rw [projectRunUpTo_succ, loopBody, ih]

theorem projectRunUpTo_traj_length (optStep : ℕ → OptState → OptState) (numSteps : ℕ)
    (init : OptState) : ∀ j, (projectRunUpTo optStep numSteps j init).traj.length = numSteps := by
  intro j
  induction j with
  | zero => simp [projectRunUpTo]
  | succ j ih => rw [projectRunUpTo_succ, loopBody, List.length_set, ih]

theorem projectRunUpTo_traj_getD (optStep : ℕ → OptState → OptState) (numSteps : ℕ)
    (init : OptState) : ∀ j, j ≤ numSteps → ∀ i, i < numSteps →
    (projectRunUpTo optStep numSteps j init).traj.getD i none =
      if i < j then some ((optStep i (stateAt optStep init i)).wOpt) else none := by
  intro j
  induction j with
  | zero =>
      intro _ i hi
      simp [projectRunUpTo, List.getD_eq_getElem?_getD, List.getElem?_replicate, hi]
  | succ j ih =>
      intro hj i hi
      rw [projectRunUpTo_succ, loopBody]
      simp only
      by_cases hij : i = j
      · subst hij
        have hlen : i < (projectRunUpTo optStep numSteps i init).traj.length := by
          rw [projectRunUpTo_traj_length]
          exact hi
        rw [List.getD_eq_getElem?_getD, List.getElem?_set_self hlen,
          projectRunUpTo_st]
        simp [Nat.lt_succ_self]
      · rw [List.getD_eq_getElem?_getD, List.getElem?_set_ne (fun h => hij h.symm),
          ← List.getD_eq_getElem?_getD, ih (Nat.le_of_succ_le hj) i hi]
        by_cases hlt : i < j
        · rw [if_pos hlt, if_pos (Nat.lt_succ_of_lt hlt)]
        · have : ¬ i < j + 1 := by omega
          rw [if_neg hlt, if_neg this]

/-! ### Up-front shape checks

From `projector.py`:

    line 43: assert target_image.shape == (G.img_channels, G.img_resolution, G.img_resolution)
    line 51: assert target_class.size()[1] == G.c_dim

Both asserts run before the optimization loop (lines 82-132); a failed
assert aborts the call, which the spec names `ShapeMismatch`. -/

structure GenMeta where
  imgChannels : ℕ
  imgResolution : ℕ
  cDim : ℕ

inductive ProjError where
  | shapeMismatch : ProjError
  | missingStartSeed : ProjError
  | unsupportedLossStrategy : ProjError
deriving DecidableEq

/-- `project` with its two shape asserts made explicit: the checks run first
and the loop only on success. -/
noncomputable def projectChecked (G : GenMeta) (targetShape : ℕ × ℕ × ℕ) (classWidth : ℕ)
    (optStep : ℕ → OptState → OptState) (numSteps : ℕ) (init : OptState) :
    Except ProjError LoopAcc :=
  if targetShape = (G.imgChannels, G.imgResolution, G.imgResolution) then
    if classWidth = G.cDim then .ok (projectRun optStep numSteps init)
    else .error .shapeMismatch
  else .error .shapeMismatch

/-- How many gradient steps a (possibly failed) projection executed. -/
def stepsExecuted : Except ProjError LoopAcc → ℕ
  | .error _ => 0
  | .ok acc => acc.cnt

/-! ### Run-level validation of `run_projection_sgan3_fun`

From `projector_stylegan3_fun.py` lines 446-496:

    if not start_wavg:
        if projection_seed is None:
            log.error('Provide a seed to start from if not starting from the midpoint. ...')
    ...
    if loss_paper == 'discriminator':
        raise ValueError('not supported for now')
    ...
    projected_w_steps, run_config = project(...)
-/

/-- Modelled from the spec: the logging helper `sample_augment.utils.log` is
repository code that is not under `src/`; per the spec, the missing-seed
condition is "surfaced as a configuration error before any computation
begins, not recovered", and the spec names it `MissingStartSeed`.  The
unconditional `raise ValueError` for the discriminator strategy is the
spec's `UnsupportedLossStrategy`.  On success the optimization loop runs. -/
noncomputable def runProjectionSgan3Fun (startWavg : Bool) (projectionSeed : Option ℤ)
    (lossPaper : String) (optStep : ℕ → OptState → OptState) (numSteps : ℕ)
    (init : OptState) : Except ProjError LoopAcc :=
  if startWavg = false ∧ projectionSeed = none then .error .missingStartSeed
  else if lossPaper = "discriminator" then .error .unsupportedLossStrategy
  else .ok (projectRun optStep numSteps init)

/-- The loss-strategy dispatch of `project`
(`projector_stylegan3_fun.py` lines 103-143), keyed by `loss_paper`, with the
discriminator collaborator `D` optional as in the source (default `None`). -/
inductive LossSetup (δ : Type) where
  | sgan2 : LossSetup δ
  | im2sgan : LossSetup δ
  | discriminatorFeats : δ → LossSetup δ
  | clip : LossSetup δ

/-- Modelled from the spec: `DiscriminatorFeatures`
(`sample_augment.models.stylegan2.network_features`) is repository code that
is not under `src/`; per the spec, constructing the discriminator-feature
strategy fails with `UnsupportedLossStrategy` exactly when the discriminator
collaborator was not supplied, and succeeds otherwise.  The other strategy
branches follow the source's `loss_paper` dispatch. -/
def setupLossStrategy (δ : Type) (lossPaper : String) (D : Option δ) :
    Except ProjError (LossSetup δ) :=
  if lossPaper = "sgan2" then .ok .sgan2
  else if lossPaper = "im2sgan" then .ok .im2sgan
  else if lossPaper = "discriminator" then
    match D with
    | none => .error .unsupportedLossStrategy
    | some d => .ok (.discriminatorFeats d)
  else .ok .clip

/-! ### The im2sgan per-step loss

From `projector_stylegan3_fun.py` lines 112-116 and 212-250:

    layers = ['conv1_1', ..., 'fc3']                            (16 layers)
    ...
    percept_error = sum(map(lambda x, y: mse(x, y), target_features, synth_features))
    mse_error = mse(synth_images, target) / (G.img_channels * G.img_resolution * G.img_resolution)
    ssim_loss = ssim_out(target, synth_images)
    loss = percept_error + mse_error
    ...
    loss += reg_loss * regularize_noise_weight
    last_status = {'percept_error': ..., 'pixel_mse': ..., 'ssim': ..., 'loss': ...}

`mse` is `torch.nn.MSELoss(reduction='mean')`: the mean of the squared
elementwise differences.  The SSIM module is an external collaborator,
abstracted as a function parameter. -/

def mseQ (a b : List ℚ) : ℚ :=
  (List.zipWith (fun x y => (x - y) ^ 2) a b).sum / a.length

def im2sganLayers : List String :=
  ["conv1_1", "conv1_2", "conv2_1", "conv2_2", "conv3_1", "conv3_2", "conv3_3",
   "conv4_1", "conv4_2", "conv4_3", "conv5_1", "conv5_2", "conv5_3", "fc1", "fc2", "fc3"]

structure Im2sganStatus where
  perceptError : ℚ
  pixelMse : ℚ
  ssim : ℚ
  loss : ℚ

/-- One im2sgan loss evaluation: returns the minimized loss together with the
per-step diagnostics dictionary `last_status`. -/
def im2sganStep (targetFeatures synthFeatures : List (List ℚ)) (synthImages target : List ℚ)
    (imgChannels imgResolution : ℕ) (ssimOut : List ℚ → List ℚ → ℚ)
    (noiseBufs : List (List (List ℚ))) (regularizeNoiseWeight : ℚ) : ℚ × Im2sganStatus :=
  let perceptError := (List.zipWith mseQ targetFeatures synthFeatures).sum
  let mseError := mseQ synthImages target / (imgChannels * imgResolution * imgResolution)
  let ssimLoss := ssimOut target synthImages
  let loss0 := perceptError + mseError
  let regLoss := totalReg noiseBufs
  let loss := loss0 + regLoss * regularizeNoiseWeight
  (loss, ⟨perceptError, mseError, ssimLoss, loss⟩)

theorem sum_zipWith_mseQ : ∀ (n : ℕ) (a b : List (List ℚ)),
    a.length = n → b.length = n →
    (List.zipWith mseQ a b).sum =
      ∑ i ∈ Finset.range n, mseQ (a.getD i []) (b.getD i []) := by
  intro n
  induction n with
  | zero =>
      intro a b ha hb
      rw [List.length_eq_zero.mp ha, List.length_eq_zero.mp hb]
      simp
  | succ m ih =>
      intro a b ha hb
      cases a with
      | nil => simp at ha
      | cons x xs =>
          cases b with
          | nil => simp at hb
          | cons y ys =>
              rw [List.zipWith_cons_cons, List.sum_cons, Finset.sum_range_succ']
              simp only [List.getD_cons_zero, List.getD_cons_succ]
              rw [ih xs ys (by simpa using ha) (by simpa using hb)]
              ring

/-! ### Seed-independence of the starting statistics

From `projector.py`:

    lines 163-164 (run_projection):  np.random.seed(seed); torch.manual_seed(seed)
    line 47 (project):  z_samples = np.random.RandomState(123).randn(w_avg_samples, G.z_dim)
    lines 54-57:        w_samples = G.mapping(...)[:, :1, :]
                        w_avg = np.mean(w_samples, axis=0, keepdims=True)
                        w_std = (np.sum((w_samples - w_avg) ** 2) / w_avg_samples) ** 0.5

`np.random.RandomState(123)` is a fresh local generator: its draws are a pure
function of the constant 123, not of the global numpy/torch states seeded by
the caller.  `npRandn s` abstracts the draw of the sample matrix from a
generator freshly seeded with `s`; `mapping` abstracts
`G.mapping(·, label)[:, :1, :]` for the run's fixed target class. -/

structure RunSeeds where
  npSeed : ℤ
  torchSeed : ℤ

/-- Componentwise sum of a list of vectors (numpy sum along axis 0). -/
def vecSum : List (List ℚ) → List ℚ
  | [] => []
  | [v] => v
  | v :: rest => List.zipWith (· + ·) v (vecSum rest)

/-- `np.mean(w_samples, axis=0)`. -/
def wAvgOf (samples : List (List ℚ)) (wAvgSamples : ℕ) : List ℚ :=
  (vecSum samples).map (fun x => x / wAvgSamples)

/-- `(np.sum((w_samples - w_avg) ** 2) / w_avg_samples) ** 0.5`. -/
noncomputable def wStdOf (samples : List (List ℚ)) (avg : List ℚ) (wAvgSamples : ℕ) : ℝ :=
  Real.sqrt
    (((samples.map (fun v => (List.zipWith (fun a b => (a - b) ^ 2) v avg).sum)).sum /
        wAvgSamples : ℚ) : ℝ)

/-- The starting-statistics computation of `project`: the conditioning-
consistent sample is drawn from `np.random.RandomState(123)`. -/
noncomputable def projectWStats (npRandn : ℕ → List (List ℚ)) (mapping : List ℚ → List ℚ)
    (wAvgSamples : ℕ) : List ℚ × ℝ :=
  let zSamples := npRandn 123
  let wSamples := zSamples.map mapping
  let wAvg := wAvgOf wSamples wAvgSamples
  (wAvg, wStdOf wSamples wAvg wAvgSamples)

/-- `run_projection`: seeds the global numpy and torch states with the
user-supplied seed, then projects; everything downstream of the global
states (noise-buffer initialization, per-step latent noise) is abstracted as
`restOfRun`. -/
noncomputable def runProjection (npRandn : ℕ → List (List ℚ)) (mapping : List ℚ → List ℚ)
    (wAvgSamples : ℕ) (seed : ℤ) (restOfRun : RunSeeds → List (List ℝ)) :
    (List ℚ × ℝ) × List (List ℝ) :=
  let seeds : RunSeeds := ⟨seed, seed⟩
  (projectWStats npRandn mapping wAvgSamples, restOfRun seeds)

/-! ## Claim theorems -/

/-- C1: for every configuration (any per-step optimizer update, any step
count, any initial state) the trajectory returned by `project` has exactly
`num_steps` slots, the loop runs exactly `num_steps` iterations with no early
stopping, and after any `j` completed iterations slot `i` holds the snapshot
taken during iteration `i` when `i < j` and is still unwritten when `i ≥ j`:
each slot is written exactly once, during its own iteration, so the
trajectory is populated in strictly increasing step order. -/
theorem project_trajectory_exact (optStep : ℕ → OptState → OptState) (numSteps : ℕ)
    (init : OptState) :
    (projectRun optStep numSteps init).traj.length = numSteps ∧
    (projectRun optStep numSteps init).cnt = numSteps ∧
    (∀ j, j ≤ numSteps → ∀ i, i < numSteps →
      (projectRunUpTo optStep numSteps j init).traj.getD i none =
        if i < j then some ((optStep i (stateAt optStep init i)).wOpt) else none) :=
  ⟨projectRunUpTo_traj_length optStep numSteps init numSteps,
   projectRunUpTo_cnt optStep numSteps init numSteps,
   projectRunUpTo_traj_getD optStep numSteps init⟩

theorem project_trajectory_exact_check :
    (1 ≤ 2 ∧ 0 < 2) ∧
    (projectRunUpTo (fun _ s => s) 2 1 ⟨[], []⟩).traj.getD 0 none =
      (if 0 < 1 then some ((fun (_ : ℕ) (s : OptState) => s) 0
        (stateAt (fun _ s => s) ⟨[], []⟩ 0)).wOpt else none) :=
  ⟨⟨by norm_num, by norm_num⟩,
   (project_trajectory_exact (fun _ s => s) 2 ⟨[], []⟩).2.2 1 (by norm_num) 0 (by norm_num)⟩

/-- C2: at the end of every loop iteration `j`, for every individual noise
buffer position `i`, the end-of-iteration state holds exactly the
renormalization (mean subtracted, then scaled by the reciprocal square root
of the mean square) of the buffer produced by iteration `j`'s gradient step,
and whenever that buffer is nonempty and not identically equal to its own
mean (nonzero after the mean subtraction) the renormalized buffer has mean
exactly 0 and mean square exactly 1 — regardless of the other buffers. -/
theorem noise_renorm_unit_moments (optStep : ℕ → OptState → OptState) (init : OptState)
    (numSteps j i : ℕ) (_hj : j < numSteps)
    (hi : i < (preStepBufs optStep init numSteps j).length)
    (hne : (preStepBufs optStep init numSteps j).getD i [] ≠ [])
    (hnz : ∃ x ∈ centerBuf ((preStepBufs optStep init numSteps j).getD i []), x ≠ 0) :
    (projectRunUpTo optStep numSteps (j + 1) init).st.bufs.getD i [] =
      normalizeBuf ((preStepBufs optStep init numSteps j).getD i []) ∧
    bufMean ((projectRunUpTo optStep numSteps (j + 1) init).st.bufs.getD i []) = 0 ∧
    bufMeanSq ((projectRunUpTo optStep numSteps (j + 1) init).st.bufs.getD i []) = 1 := by
  have hbufs : (projectRunUpTo optStep numSteps (j + 1) init).st.bufs =
      (preStepBufs optStep init numSteps j).map normalizeBuf := by
    rw [projectRunUpTo_st]
    simp only [stateAt, normalizeState, preStepBufs, projectRunUpTo_st]
  have hmaplen : i < ((preStepBufs optStep init numSteps j).map normalizeBuf).length := by
    rw [List.length_map]
    exact hi
  have hentry : (projectRunUpTo optStep numSteps (j + 1) init).st.bufs.getD i [] =
      normalizeBuf ((preStepBufs optStep init numSteps j).getD i []) := by
    rw [hbufs, List.getD_eq_getElem _ _ hmaplen, List.getElem_map,
      List.getD_eq_getElem _ _ hi]
  refine ⟨hentry, ?_⟩
  rw [hentry]
  exact normalizeBuf_moments _ hne hnz

theorem noise_renorm_unit_moments_check :
    bufMean ((projectRunUpTo (fun _ _ => (⟨[], [[1, -1]]⟩ : OptState)) 1 1
      ⟨[], []⟩).st.bufs.getD 0 []) = 0 ∧
    bufMeanSq ((projectRunUpTo (fun _ _ => (⟨[], [[1, -1]]⟩ : OptState)) 1 1
      ⟨[], []⟩).st.bufs.getD 0 []) = 1 := by
  have h := noise_renorm_unit_moments (fun _ _ => (⟨[], [[1, -1]]⟩ : OptState)) ⟨[], []⟩ 1 0 0
    (by norm_num)
    (by simp [preStepBufs])
    (by simp [preStepBufs])
    (by
      show ∃ x ∈ centerBuf [(1 : ℝ), -1], x ≠ 0
      have hc : centerBuf [(1 : ℝ), -1] = [1, -1] := by
        simp [centerBuf, bufMean]
      rw [hc]
      exact ⟨1, by simp, by norm_num⟩)
  exact ⟨h.2.1, h.2.2⟩

/-- C3: for square noise buffers (the shape of every `noise_const` buffer),
the accumulated regularization penalty of the source's nested loops equals
the specification's recursive description: per buffer, at each level add the
squared mean of the image times its one-pixel horizontal shift plus the same
for a vertical shift, average-pool by 2 and recurse while the smaller spatial
dimension exceeds 8, and sum the contributions of all buffers. -/
theorem noise_reg_pyramid_matches_spec (bufs : List (List (List ℚ)))
    (hsq : ∀ img ∈ bufs, IsSquare img) :
    totalReg bufs = (bufs.map regBufSpec).sum := by
  rw [totalReg_eq_sum]
  exact congrArg List.sum (List.map_congr_left (fun img himg => regBuf_eq_spec img (hsq img himg)))

theorem noise_reg_pyramid_matches_spec_check :
    (∀ img ∈ [[[(1 : ℚ), 2], [3, 4]]], IsSquare img) ∧
    totalReg [[[(1 : ℚ), 2], [3, 4]]] = ([[[(1 : ℚ), 2], [3, 4]]].map regBufSpec).sum :=
  ⟨by decide, noise_reg_pyramid_matches_spec [[[(1 : ℚ), 2], [3, 4]]] (by decide)⟩

/-- C4: in ramped mode the learning rate is exactly
`initial * (0.5 - 0.5*cos(min(1,(1-t)/rampdown)*π)) * min(1, t/rampup)`,
which is 0 at `t = 0`; in constant mode the rate is the configured initial
rate for every `t`. -/
theorem lr_schedule_modes (initialLr lrRampdownLength lrRampupLength t : ℝ) :
    lrSchedule false initialLr lrRampdownLength lrRampupLength t =
      initialLr * (0.5 - 0.5 * Real.cos (min 1 ((1 - t) / lrRampdownLength) * Real.pi)) *
        min 1 (t / lrRampupLength) ∧
    lrSchedule false initialLr lrRampdownLength lrRampupLength 0 = 0 ∧
    lrSchedule true initialLr lrRampdownLength lrRampupLength t = initialLr := by
  refine ⟨?_, ?_, ?_⟩
  · rw [lrSchedule]
    simp only [Bool.false_eq_true, if_false]
    ring
  · rw [lrSchedule]
    simp only [Bool.false_eq_true, if_false, zero_div]
    rw [min_eq_right (by norm_num : (0 : ℝ) ≤ 1)]
    ring
  · rw [lrSchedule]
    simp

/-- C5: whenever the target image's shape differs from the generator's
declared `(channels, resolution, resolution)` or the conditioning width
differs from the generator's conditioning width, `project` fails with the
shape-mismatch error before the loop starts, and the executed-step counter is
zero. -/
theorem shape_guard_before_loop (G : GenMeta) (targetShape : ℕ × ℕ × ℕ) (classWidth : ℕ)
    (optStep : ℕ → OptState → OptState) (numSteps : ℕ) (init : OptState)
    (h : targetShape ≠ (G.imgChannels, G.imgResolution, G.imgResolution) ∨
      classWidth ≠ G.cDim) :
    projectChecked G targetShape classWidth optStep numSteps init = .error .shapeMismatch ∧
    stepsExecuted (projectChecked G targetShape classWidth optStep numSteps init) = 0 := by
  rcases h with h | h
  · rw [projectChecked, if_neg h]
    exact ⟨rfl, rfl⟩
  · rw [projectChecked]
    by_cases h1 : targetShape = (G.imgChannels, G.imgResolution, G.imgResolution)
    · rw [if_pos h1, if_neg h]
      exact ⟨rfl, rfl⟩
    · rw [if_neg h1]
      exact ⟨rfl, rfl⟩

theorem shape_guard_before_loop_check :
    (((3 : ℕ), (64 : ℕ), (64 : ℕ)) ≠ (3, 32, 32) ∨ (10 : ℕ) ≠ 10) ∧
    projectChecked ⟨3, 32, 10⟩ (3, 64, 64) 10 (fun _ s => s) 5 ⟨[], []⟩ =
      .error .shapeMismatch ∧
    stepsExecuted (projectChecked ⟨3, 32, 10⟩ (3, 64, 64) 10 (fun _ s => s) 5 ⟨[], []⟩) = 0 :=
  ⟨Or.inl (by decide),
   shape_guard_before_loop ⟨3, 32, 10⟩ (3, 64, 64) 10 (fun _ s => s) 5 ⟨[], []⟩
     (Or.inl (by decide))⟩

/-- C6: with the seeded-random starting mode selected (`start_wavg` false)
and no projection seed supplied, the run stops with the missing-start-seed
configuration error before any computation: the optimization never runs and
the executed-step counter is zero, for every loss strategy and configuration. -/
theorem missing_start_seed_aborts (lossPaper : String)
    (optStep : ℕ → OptState → OptState) (numSteps : ℕ) (init : OptState) :
    runProjectionSgan3Fun false none lossPaper optStep numSteps init =
      .error .missingStartSeed ∧
    stepsExecuted (runProjectionSgan3Fun false none lossPaper optStep numSteps init) = 0 := by
  rw [runProjectionSgan3Fun, if_pos ⟨rfl, rfl⟩]
  exact ⟨rfl, rfl⟩

/-- C7: the discriminator-feature strategy fails with the
unsupported-loss-strategy error exactly when no discriminator collaborator is
supplied, and sets up normally when one is; at the run entry point, which
never supplies a discriminator, selecting that strategy always fails with the
same error. -/
theorem unsupported_loss_strategy_guard (δ : Type)
    (optStep : ℕ → OptState → OptState) (numSteps : ℕ) (init : OptState) :
    (∀ D : Option δ,
      (setupLossStrategy δ "discriminator" D = .error .unsupportedLossStrategy ↔ D = none)) ∧
    (∀ (startWavg : Bool) (s : ℤ),
      runProjectionSgan3Fun startWavg (some s) "discriminator" optStep numSteps init =
        .error .unsupportedLossStrategy) := by
  constructor
  · intro D
    cases D with
    | none => simp [setupLossStrategy]
    | some d => simp [setupLossStrategy]
  · intro wavg s
    rw [runProjectionSgan3Fun, if_neg (by simp), if_pos rfl]

/-- C8: at every im2sgan step the minimized loss equals the per-layer MSE
summed across the 16 named VGG layers, plus the pixel MSE divided by the
total pixel count, plus the weighted noise-regularization penalty; the
structural-similarity value appears in the reported diagnostics but the loss
is independent of it. -/
theorem im2sgan_loss_formula (targetFeatures synthFeatures : List (List ℚ))
    (synthImages target : List ℚ) (imgChannels imgResolution : ℕ)
    (ssimOut1 ssimOut2 : List ℚ → List ℚ → ℚ) (noiseBufs : List (List (List ℚ))) (w : ℚ)
    (htf : targetFeatures.length = im2sganLayers.length)
    (hsf : synthFeatures.length = im2sganLayers.length) :
    (im2sganStep targetFeatures synthFeatures synthImages target imgChannels imgResolution
        ssimOut1 noiseBufs w).1 =
      (∑ i ∈ Finset.range 16,
          mseQ (targetFeatures.getD i []) (synthFeatures.getD i [])) +
        mseQ synthImages target / (imgChannels * imgResolution * imgResolution) +
        totalReg noiseBufs * w ∧
    (im2sganStep targetFeatures synthFeatures synthImages target imgChannels imgResolution
        ssimOut1 noiseBufs w).1 =
      (im2sganStep targetFeatures synthFeatures synthImages target imgChannels imgResolution
        ssimOut2 noiseBufs w).1 ∧
    (im2sganStep targetFeatures synthFeatures synthImages target imgChannels imgResolution
        ssimOut1 noiseBufs w).2.ssim = ssimOut1 target synthImages ∧
    im2sganLayers.length = 16 := by
  refine ⟨?_, rfl, rfl, rfl⟩
  have h16 : im2sganLayers.length = 16 := rfl
  rw [h16] at htf hsf
  rw [im2sganStep]
  simp only
  rw [sum_zipWith_mseQ 16 targetFeatures synthFeatures htf hsf]

theorem im2sgan_loss_formula_check :
    ((List.replicate 16 [(1 : ℚ)]).length = im2sganLayers.length ∧
      (List.replicate 16 [(0 : ℚ)]).length = im2sganLayers.length) ∧
    (im2sganStep (List.replicate 16 [(1 : ℚ)]) (List.replicate 16 [(0 : ℚ)])
        [2] [0] 1 1 (fun _ _ => 7) [] 1).1 =
      (∑ i ∈ Finset.range 16,
          mseQ ((List.replicate 16 [(1 : ℚ)]).getD i [])
            ((List.replicate 16 [(0 : ℚ)]).getD i [])) +
        mseQ [2] [0] / (1 * 1 * 1) + totalReg [] * 1 :=
  ⟨⟨by decide, by decide⟩,
   (im2sgan_loss_formula (List.replicate 16 [(1 : ℚ)]) (List.replicate 16 [(0 : ℚ)])
     [2] [0] 1 1 (fun _ _ => 7) (fun _ _ => 0) [] 1 (by decide) (by decide)).1⟩

/-- C9: the noise-regularization penalty is non-negative, and replacing any
single buffer by its elementwise negation leaves the penalty unchanged. -/
theorem noise_reg_nonneg_sign_flip (bufs : List (List (List ℚ))) (i : ℕ) :
    0 ≤ totalReg bufs ∧
    totalReg (bufs.set i (negBuf (bufs.getD i []))) = totalReg bufs := by
  constructor
  · rw [totalReg_eq_sum]
    refine List.sum_nonneg ?_
    intro q hq
    obtain ⟨img, _, rfl⟩ := List.mem_map.mp hq
    exact regBuf_nonneg img
  · exact totalReg_set_neg bufs i

/-- C10: the starting statistics `w_avg` and `w_std` computed by
`run_projection` do not depend on the user-supplied seed: the global numpy
and torch states are seeded with it, but the conditioning-consistent sample
is drawn from a fresh generator with the fixed internal seed 123, so two runs
that differ only in the public seed produce identical starting statistics. -/
theorem wstats_ignore_user_seed (npRandn : ℕ → List (List ℚ))
    (mapping : List ℚ → List ℚ) (wAvgSamples : ℕ) (restOfRun : RunSeeds → List (List ℝ))
    (seed1 seed2 : ℤ) :
    (runProjection npRandn mapping wAvgSamples seed1 restOfRun).1 =
      (runProjection npRandn mapping wAvgSamples seed2 restOfRun).1 ∧
    (runProjection npRandn mapping wAvgSamples seed1 restOfRun).1 =
      projectWStats npRandn mapping wAvgSamples :=
  ⟨rfl, rfl⟩

end StyleganProjector
